import Mathlib

/-!
Verification of the line-oriented rich-text editor of bubble-notes-chat.

Shallow embedding of the relevant functions of
`src/components/RichTextEditor.tsx` and `src/components/MessageContent.tsx`.
Strings are modelled as `List Char` (JS strings at the granularity the code
uses them: one `Char` per UTF-16 unit of the inputs considered here).
-/

abbrev Chars := List Char

/-- Characters treated as whitespace by JS `String.prototype.trim` and by the
regex class `\s` (ASCII subset; the source is only ever exercised on these). -/
def isWsChar (c : Char) : Bool :=
  c = ' ' || c = '\t' || c = '\n' || c = '\r' || c = '\x0b' || c = '\x0c'

/-- Left part of JS `trim`. -/
def ltrim (l : Chars) : Chars := l.dropWhile isWsChar

/-- Right part of JS `trim`. -/
def rtrim (l : Chars) : Chars := (l.reverse.dropWhile isWsChar).reverse

/-- JS `String.prototype.trim`. -/
def trimJS (l : Chars) : Chars := rtrim (ltrim l)

/-- Convenience: the character list of a string literal. -/
def strL (s : String) : Chars := s.toList

/-- JS `String.prototype.startsWith`. -/
def sw (p : String) (t : Chars) : Bool := p.toList.isPrefixOf t

/-- The backtick character (U+0060), extracted from a string literal. -/
def backTick : Char := (strL "`").headD ' '

/-- `type LineFormatType = 'plain' | 'h1' | 'h2' | 'h3' | 'ul' | 'ol'`
(RichTextEditor.tsx line 15). -/
inductive LineFormatType
  | plain | h1 | h2 | h3 | ul | ol
deriving DecidableEq

/-- `type InlineFormatType = 'bold' | 'italic'` (RichTextEditor.tsx line 16). -/
inductive InlineFormatType
  | bold | italic
deriving DecidableEq

/-- One entry of `inlineFormats: Array<{start; end; type}>`. -/
structure InlineSpan where
  startPos : Nat
  endPos : Nat
  type : InlineFormatType
deriving DecidableEq

/-- `interface LineFormat { type; content; inlineFormats }`
(RichTextEditor.tsx lines 18-26). -/
structure LineFormat where
  type : LineFormatType
  content : Chars
  inlineFormats : List InlineSpan
deriving DecidableEq

/-- `span`-style maximal-run split used to model the JS regex tests below
(the regexes involved admit no successful backtracking, so the maximal run
of the character class is the only candidate match). -/
def spanL (p : Char → Bool) (l : Chars) : Chars × Chars :=
  (l.takeWhile p, l.dropWhile p)

/-- `trimmed.toLowerCase().startsWith('heading ') ||
trimmed.toLowerCase().startsWith('header ')` (RichTextEditor.tsx line 170). -/
def headingWordTest (t : Chars) : Bool :=
  sw "heading " (t.map Char.toLower) || sw "header " (t.map Char.toLower)

/-- `trimmed.startsWith('- ') || trimmed.startsWith('* ') ||
trimmed.startsWith('• ')` (RichTextEditor.tsx line 175). -/
def ulTest (t : Chars) : Bool := sw "- " t || sw "* " t || sw "• " t

/-- A JS test of the form `/^X+\.\s/` for a character class `X` that excludes
`.`: a nonempty maximal run of `X`, then `.`, then one whitespace character. -/
def runDotWs (p : Char → Bool) (t : Chars) : Bool :=
  match spanL p t with
  | (run, rest) =>
    !run.isEmpty &&
      (match rest with
       | '.' :: c :: _ => isWsChar c
       | _ => false)

/-- Lowercase roman-numeral characters, class `[ivxlcdm]` of the source. -/
def isRomanLower (c : Char) : Bool :=
  c = 'i' || c = 'v' || c = 'x' || c = 'l' || c = 'c' || c = 'd' || c = 'm'

/-- `/^\d+\.\s/.test(trimmed) || /^[a-z]+\.\s/.test(trimmed) ||
/^[ivxlcdm]+\.\s/.test(trimmed)` (RichTextEditor.tsx line 180). -/
def olTest (t : Chars) : Bool :=
  runDotWs Char.isDigit t || runDotWs Char.isLower t || runDotWs isRomanLower t

/-- `trimmed.match(/^([a-z0-9]+)\.\s(.*)$/i)` (RichTextEditor.tsx line 181):
on success, the second capture group (the text after the enumerator, the dot
and one whitespace character). -/
def olCapture (t : Chars) : Option Chars :=
  match spanL Char.isAlphanum t with
  | (run, '.' :: c :: rest) =>
    if !run.isEmpty && isWsChar c then some rest else none
  | _ => none

/-- Task-list test of RichTextEditor.tsx line 188 (literal lowercase `x`
only, exactly as in the source). -/
def taskTest (t : Chars) : Bool :=
  sw "- [ ] " t || sw "- [x] " t || sw "* [ ] " t || sw "* [x] " t

/-- Fenced-code test of RichTextEditor.tsx line 193. -/
def fenceTest (t : Chars) : Bool := sw "```" t || sw "~~~" t

/-- Inline-code test of RichTextEditor.tsx line 196: starts and ends with a
backtick and has length greater than 2. -/
def inlineCodeTest (t : Chars) : Bool :=
  (t.head? == some backTick) && (t.getLast? == some backTick) &&
    decide (t.length > 2)

/-- Quote test of RichTextEditor.tsx line 201. -/
def quoteTest (t : Chars) : Bool :=
  sw "> " t || (t.head? == some '"') || (t.head? == some '\'')

/-- Horizontal-rule test `/^[-*_]{3,}$/` of RichTextEditor.tsx line 206. -/
def hrTest (t : Chars) : Bool :=
  decide (t.length ≥ 3) && t.all (fun c => c = '-' || c = '*' || c = '_')

/-- Body of `detectMarkdownFormat` (RichTextEditor.tsx lines 155-212) after
the initial `const trimmed = lineContent.trim()`: first argument is the
trimmed line, second the raw line (used by the final default branch). -/
def detectTrimmed (t raw : Chars) : LineFormat :=
  if sw "### " t then ⟨.h3, t.drop 4, []⟩
  else if sw "## " t then ⟨.h2, t.drop 3, []⟩
  else if sw "# " t then ⟨.h1, t.drop 2, []⟩
  else if headingWordTest t then ⟨.h1, t, []⟩
  else if ulTest t then ⟨.ul, t.drop 2, []⟩
  else
    match (if olTest t then olCapture t else none) with
    | some rest => ⟨.ol, rest, []⟩
    | none =>
      if taskTest t then ⟨.ul, t.drop 6, []⟩
      else if fenceTest t then ⟨.plain, t, []⟩
      else if inlineCodeTest t then ⟨.plain, t, []⟩
      else if quoteTest t then ⟨.plain, if sw "> " t then t.drop 2 else t, []⟩
      else if hrTest t then ⟨.plain, [], []⟩
      else ⟨.plain, raw, []⟩

/-- `detectMarkdownFormat` (RichTextEditor.tsx lines 155-212). -/
def detectMarkdownFormat (raw : Chars) : LineFormat :=
  detectTrimmed (trimJS raw) raw

/-- Content of an ordered-list line per the spec wording of §4.2: the text
after the matched enumerator (a digit or lowercase-letter run), the dot and
the one-character whitespace separator. -/
def olStripSpec (t : Chars) : Chars :=
  (t.dropWhile (fun c => c.isDigit || c.isLower)).drop 2

/-- The line classifier as the amended claim C3 words it, on the trimmed
line: `### `/`## `/`# ` headings; then the case-insensitive `heading `/
`header ` word rule (Heading1, line kept whole); then bullets; then ordered
enumerators (enumerator and separator stripped); fenced/inline code, quote
and horizontal-rule lines render Plain (quote marker stripped); anything
else is Plain with the raw line unchanged. Task-list lines are already
captured by the bullet rule, so no separate task clause appears. -/
def classifyTrimmedSpec (t raw : Chars) : LineFormat :=
  if sw "### " t then ⟨.h3, t.drop 4, []⟩
  else if sw "## " t then ⟨.h2, t.drop 3, []⟩
  else if sw "# " t then ⟨.h1, t.drop 2, []⟩
  else if headingWordTest t then ⟨.h1, t, []⟩
  else if ulTest t then ⟨.ul, t.drop 2, []⟩
  else if olTest t then ⟨.ol, olStripSpec t, []⟩
  else if fenceTest t || inlineCodeTest t then ⟨.plain, t, []⟩
  else if quoteTest t then ⟨.plain, if sw "> " t then t.drop 2 else t, []⟩
  else if hrTest t then ⟨.plain, [], []⟩
  else ⟨.plain, raw, []⟩

/-- Claim-C3-side classifier on a raw line. -/
def classifyLineSpec (raw : Chars) : LineFormat :=
  classifyTrimmedSpec (trimJS raw) raw

/-- Wrapper characters of `updateContent`: `'**'` for bold, `'*'` for italic
(RichTextEditor.tsx line 534). -/
def wrapperOf : InlineFormatType → Chars
  | .bold => ['*', '*']
  | .italic => ['*']

/-- One step of the `sortedFormats.forEach` of `updateContent`
(RichTextEditor.tsx lines 529-536): `before + wrapper + middle + wrapper +
after`, with JS `slice` modelled by clamping `take`/`drop`. -/
def wrapSpan (content : Chars) (f : InlineSpan) : Chars :=
  content.take f.startPos ++ wrapperOf f.type ++
    ((content.take f.endPos).drop f.startPos) ++ wrapperOf f.type ++
    content.drop f.endPos

/-- `[...inlineFormats].sort((a, b) => b.start - a.start)` followed by the
wrapping `forEach` (RichTextEditor.tsx lines 527-536). -/
def applyInline (l : LineFormat) : Chars :=
  (l.inlineFormats.insertionSort (fun a b => b.startPos ≤ a.startPos)).foldl
    wrapSpan l.content

/-- Decimal digits of a number, as JS `${n}`. -/
def natChars (n : Nat) : Chars := (toString n).toList

/-- `getLinePrefix` (RichTextEditor.tsx lines 64-74), also the non-`ol`
prefixes of the `switch` in `updateContent` (lines 540-556). -/
def lineMarker : LineFormatType → Chars
  | .h1 => strL "# "
  | .h2 => strL "## "
  | .h3 => strL "### "
  | .ul => strL "- "
  | .ol => strL "1. "
  | .plain => []

/-- The per-line loop of `updateContent` (RichTextEditor.tsx lines 521-558).
The source iterates with an index and a mutable `olCounter`, consulting
`newLines[index - 1].type`; here the previous line's type is carried as
`prev` (`none` at index 0) and the counter as `olCounter`.  As in the
source, `ol` resets the counter to 1 when the previous line is not `ol`
(lines 546-551), the `default` (plain) branch resets it (line 554), and the
heading/bullet branches leave it untouched. -/
def updateContentAux (prev : Option LineFormatType) (olCounter : Nat) :
    List LineFormat → List Chars
  | [] => []
  | l :: rest =>
    match l.type with
    | .ol =>
      let c := if prev = some .ol then olCounter else 1
      (natChars c ++ strL ". " ++ applyInline l) ::
        updateContentAux (some .ol) (c + 1) rest
    | .plain => applyInline l :: updateContentAux (some .plain) 1 rest
    | t => (lineMarker t ++ applyInline l) :: updateContentAux (some t) olCounter rest

/-- `lines.join('\n')` and also the textarea value
`lines.map(line => line.content).join('\n')`. -/
def joinNl : List Chars → Chars
  | [] => []
  | [l] => l
  | l :: rest => l ++ '\n' :: joinNl rest

/-- `updateContent` (RichTextEditor.tsx lines 521-561): the flat string
handed to `onContentChange`. -/
def updateContent (newLines : List LineFormat) : Chars :=
  joinNl (updateContentAux none 1 newLines)

/-- The serializer as claim C5 words it: a running counter, starting at 1,
that each OrderedItem line emits and then increments, and that every
non-OrderedItem line resets to 1. -/
def specOlSerialize (c : Nat) : List LineFormat → List Chars
  | [] => []
  | l :: rest =>
    if l.type = .ol then
      (natChars c ++ strL ". " ++ applyInline l) :: specOlSerialize (c + 1) rest
    else
      (lineMarker l.type ++ applyInline l) :: specOlSerialize 1 rest

/-- The `for (let i = 0; i < index; i++)` loop of `getVisualPrefix`
(RichTextEditor.tsx lines 86-94): `olNumber` starts at 1, is incremented on
each `ol` line before `index` and reset to 1 on each other line. -/
def olNumberFor (allLines : List LineFormat) (index : Nat) : Nat :=
  (allLines.take index).foldl (fun n l => if l.type = .ol then n + 1 else 1) 1

/-- `getVisualPrefix` (RichTextEditor.tsx lines 76-99): the gutter badge for
a line (`'N'`, `'H1'`..`'H3'`, `'•'`, or the recomputed `'{n}.'`). -/
def getVisualBadge (type : LineFormatType) (index : Nat)
    (allLines : List LineFormat) : Chars :=
  match type with
  | .plain => strL "N"
  | .h1 => strL "H1"
  | .h2 => strL "H2"
  | .h3 => strL "H3"
  | .ul => strL "•"
  | .ol => natChars (olNumberFor allLines index) ++ ['.']

/-- JS `value.split('\n')`: always at least one piece, one extra piece per
newline character. -/
def splitNl : Chars → List Chars
  | [] => [[]]
  | c :: rest =>
    if c = '\n' then [] :: splitNl rest
    else
      match splitNl rest with
      | h :: t => (c :: h) :: t
      | [] => [[c]]

/-- The cursor-to-line scan shared by `handleTextChange` (RichTextEditor.tsx
lines 508-516) and `handleKeyDown` (lines 589-599): `i` is the line counter,
`cc` the cumulative character count; the scan stops at the first line whose
cumulative end reaches the cursor, and the result stays at its initial value
0 when no line does. -/
def findLineIndexGo (cursorPos : Nat) : Nat → Nat → List Chars → Nat
  | _, _, [] => 0
  | i, cc, l :: rest =>
    if cursorPos ≤ cc + l.length then i
    else findLineIndexGo cursorPos (i + 1) (cc + l.length + 1) rest

/-- The recomputation of the active line index from a cursor offset. -/
def findLineIndex (textLines : List Chars) (cursorPos : Nat) : Nat :=
  findLineIndexGo cursorPos 0 0 textLines

/-- `lineStartPos`: the loop summing `textLines[i].length + 1` for `i`
below the given index (RichTextEditor.tsx lines 607-610 and 666-669). -/
def lineStartOf (textLines : List Chars) (k : Nat) : Nat :=
  ((textLines.take k).map (fun l => l.length + 1)).sum

/-- The inline spans of one reconciled line of `handleTextChange`
(RichTextEditor.tsx lines 435-470).  A missing record (new line) receives
the armed formats over the whole nonempty content; an existing record, when
formats are armed and content grew, receives spans covering exactly the
appended suffix; otherwise the existing spans are kept unchanged. -/
def newSpans (existing : Option LineFormat) (active : List InlineFormatType)
    (lineContent : Chars) : List InlineSpan :=
  match existing with
  | none =>
    if !lineContent.isEmpty && !active.isEmpty then
      active.map (fun f => ⟨0, lineContent.length, f⟩)
    else []
  | some ex =>
    if !active.isEmpty && ex.content.length < lineContent.length then
      ex.inlineFormats ++
        active.map (fun f => ⟨ex.content.length, lineContent.length, f⟩)
    else ex.inlineFormats

/-- One iteration of the `textLines.forEach` of `handleTextChange`
(RichTextEditor.tsx lines 435-491): span handling, then
`lineType = existingLine?.type || (index === currentLineIndex ?
selectedFormat : 'plain')`, then opportunistic markdown detection for new or
changed lines (a detected non-plain format overrides type and content). -/
def reconcileLine (existing : Option LineFormat) (isActiveIdx : Bool)
    (selectedFormat : LineFormatType) (active : List InlineFormatType)
    (lineContent : Chars) : LineFormat :=
  let spans := newSpans existing active lineContent
  let baseType :=
    match existing with
    | some ex => ex.type
    | none => if isActiveIdx then selectedFormat else .plain
  let changed :=
    match existing with
    | some ex => ex.content != lineContent
    | none => true
  if changed then
    let d := detectMarkdownFormat lineContent
    if d.type ≠ .plain then ⟨d.type, d.content, spans⟩
    else ⟨baseType, lineContent, spans⟩
  else ⟨baseType, lineContent, spans⟩

/-- The indexed map over `textLines` of `handleTextChange`; `i` is the
running index. -/
def reconcileAll (prevLines : List LineFormat) (cur : Nat)
    (sel : LineFormatType) (active : List InlineFormatType) (i : Nat) :
    List Chars → List LineFormat
  | [] => []
  | lc :: rest =>
    reconcileLine (prevLines.get? i) (i = cur) sel active lc ::
      reconcileAll prevLines cur sel active (i + 1) rest

/-- The new `lines` state produced by `handleTextChange`
(RichTextEditor.tsx lines 429-496): split the raw value on newlines,
reconcile per line, and coerce an empty result to one empty plain line. -/
def handleTextChangeLines (prevLines : List LineFormat) (cur : Nat)
    (sel : LineFormatType) (active : List InlineFormatType) (value : Chars) :
    List LineFormat :=
  let newLines := reconcileAll prevLines cur sel active 0 (splitNl value)
  if newLines.isEmpty then [⟨.plain, [], []⟩] else newLines

/-- The Shift+Enter branch of `handleKeyDown` (RichTextEditor.tsx lines
565-652), as the new `(lines, currentLineIndex)` state.  `cur` is the stale
`currentLineIndex`, `value` the textarea value, `cursorPos` the selection
start.  The continuation format is computed from `lines[cur]` (line 569)
before the actual line index is recomputed from the cursor (lines 589-599);
the actual line is then split at the in-line cursor offset and a new record
with empty spans is spliced in after it. -/
def softNewline (lines : List LineFormat) (cur : Nat) (value : Chars)
    (cursorPos : Nat) : List LineFormat × Nat :=
  let newLineFormat :=
    match lines.get? cur with
    | some l => if l.type = .ul || l.type = .ol then l.type else .plain
    | none => .plain
  let textLines := splitNl value
  let actual := findLineIndex textLines cursorPos
  let rel := cursorPos - lineStartOf textLines actual
  let curContent := (textLines.get? actual).getD []
  let withSplit :=
    match lines.get? actual with
    | some l => lines.set actual { l with content := curContent.take rel }
    | none => lines
  (withSplit.insertIdx (actual + 1) ⟨newLineFormat, curContent.drop rel, []⟩,
    actual + 1)

/-- The Backspace branch of `handleKeyDown` (RichTextEditor.tsx lines
659-690): `some newLines` when the event is intercepted (style reset,
`preventDefault`), `none` when default backspace behavior is allowed. -/
def backspaceIntercept (lines : List LineFormat) (cur : Nat) (value : Chars)
    (cursorPos : Nat) : Option (List LineFormat) :=
  let textLines := splitNl value
  let isAtLineStart := cursorPos = lineStartOf textLines cur
  match lines.get? cur with
  | some l =>
    if isAtLineStart ∧ trimJS l.content = [] ∧ l.type ≠ .plain then
      some (lines.set cur { l with type := .plain })
    else none
  | none => none

/-- Output elements of `parseInlineMarkdown` (MessageContent.tsx lines
41-118): plain runs and the four styled span kinds. -/
inductive InlineTok
  | plainRun : Chars → InlineTok
  | codeSpan : Chars → InlineTok
  | boldSpan : Chars → InlineTok
  | italicSpan : Chars → InlineTok
  | boldItalicSpan : Chars → InlineTok
deriving DecidableEq

/-- `remaining.match(/^\*\*\*([^*]+)\*\*\*/)` (MessageContent.tsx line 58):
three asterisks, a nonempty maximal run of non-asterisks, three asterisks;
returns the content and the rest after the whole match. -/
def mBoldItalic : Chars → Option (Chars × Chars)
  | '*' :: '*' :: '*' :: rest =>
    let c := rest.takeWhile (fun x => x != '*')
    match rest.dropWhile (fun x => x != '*') with
    | '*' :: '*' :: '*' :: r2 => if c.isEmpty then none else some (c, r2)
    | _ => none
  | _ => none

/-- `remaining.match(/^`([^`]+)`/)` (MessageContent.tsx line 70). -/
def mCode : Chars → Option (Chars × Chars)
  | b :: rest =>
    if b = backTick then
      let c := rest.takeWhile (fun x => x != backTick)
      match rest.dropWhile (fun x => x != backTick) with
      | d :: r2 =>
        if d = backTick then (if c.isEmpty then none else some (c, r2))
        else none
      | _ => none
    else none
  | _ => none

/-- `remaining.match(/^\*\*([^*]+)\*\*/)` (MessageContent.tsx line 83). -/
def mBold : Chars → Option (Chars × Chars)
  | '*' :: '*' :: rest =>
    let c := rest.takeWhile (fun x => x != '*')
    match rest.dropWhile (fun x => x != '*') with
    | '*' :: '*' :: r2 => if c.isEmpty then none else some (c, r2)
    | _ => none
  | _ => none

/-- `remaining.match(/^\*([^*]+)\*/)` (MessageContent.tsx line 94). -/
def mItalic : Chars → Option (Chars × Chars)
  | '*' :: rest =>
    let c := rest.takeWhile (fun x => x != '*')
    match rest.dropWhile (fun x => x != '*') with
    | '*' :: r2 => if c.isEmpty then none else some (c, r2)
    | _ => none
  | _ => none

/-- `remaining.search(/[*`]/)` (MessageContent.tsx line 106). -/
def findMarker (l : Chars) : Option Nat :=
  l.findIdx? (fun c => c == '*' || c == backTick)

/-- The `while (remaining.length > 0)` loop of `parseInlineMarkdown`
(MessageContent.tsx lines 46-115), with one unit of fuel consumed per
iteration; `none` means the loop did not finish within the given fuel.
Each iteration follows the source's if/else-if chain: the bold-italic
regex is tried on every string; then, keyed on the leading character,
code, bold, or italic; on no match the scanner emits the text before the
next `*`/`` ` `` marker and resumes at that marker (when no marker
remains, it emits the rest and stops). -/
def parseInlineAux : Nat → Chars → List InlineTok → Option (List InlineTok)
  | 0, _, _ => none
  | _ + 1, [], acc => some acc.reverse
  | fuel + 1, remaining, acc =>
    match mBoldItalic remaining with
    | some (c, rest) => parseInlineAux fuel rest (.boldItalicSpan c :: acc)
    | none =>
      if remaining.head? == some backTick then
        match mCode remaining with
        | some (c, rest) => parseInlineAux fuel rest (.codeSpan c :: acc)
        | none =>
          match findMarker remaining with
          | none => some ((InlineTok.plainRun remaining :: acc).reverse)
          | some i =>
            parseInlineAux fuel (remaining.drop i)
              (.plainRun (remaining.take i) :: acc)
      else if sw "**" remaining then
        match mBold remaining with
        | some (c, rest) => parseInlineAux fuel rest (.boldSpan c :: acc)
        | none =>
          match findMarker remaining with
          | none => some ((InlineTok.plainRun remaining :: acc).reverse)
          | some i =>
            parseInlineAux fuel (remaining.drop i)
              (.plainRun (remaining.take i) :: acc)
      else if remaining.head? == some '*' then
        match mItalic remaining with
        | some (c, rest) => parseInlineAux fuel rest (.italicSpan c :: acc)
        | none =>
          match findMarker remaining with
          | none => some ((InlineTok.plainRun remaining :: acc).reverse)
          | some i =>
            parseInlineAux fuel (remaining.drop i)
              (.plainRun (remaining.take i) :: acc)
      else
        match findMarker remaining with
        | none => some ((InlineTok.plainRun remaining :: acc).reverse)
        | some i =>
          parseInlineAux fuel (remaining.drop i)
            (.plainRun (remaining.take i) :: acc)

/-- `parseInlineMarkdown` (MessageContent.tsx lines 41-118) run with the
given amount of loop fuel. -/
def parseInlineMarkdown (fuel : Nat) (content : Chars) :
    Option (List InlineTok) :=
  parseInlineAux fuel content []

/-- Single-line serialization, as §8 of the spec uses it: `updateContent`
applied to the one-line sequence. -/
def serializeOneLine (l : LineFormat) : Chars := updateContent [l]

theorem takeWhile_append_of_all {p : Char → Bool} {r : Chars} (tl : Chars)
    (h : ∀ a ∈ r, p a = true) :
    (r ++ tl).takeWhile p = r ++ tl.takeWhile p := by
  induction r with
  | nil => simp
  | cons a r ih =>
    have ha : p a = true := h a (by simp)
    simp only [List.cons_append, List.takeWhile_cons, ha, if_true]
    simp [ih fun b hb => h b (by simp [hb])]

theorem dropWhile_append_of_all {p : Char → Bool} {r : Chars} (tl : Chars)
    (h : ∀ a ∈ r, p a = true) :
    (r ++ tl).dropWhile p = tl.dropWhile p := by
  induction r with
  | nil => simp
  | cons a r ih =>
    have ha : p a = true := h a (by simp)
    simp only [List.cons_append, List.dropWhile_cons, ha, if_true]
    exact ih fun b hb => h b (by simp [hb])

theorem dropWhile_cons_of_head {p : Char → Bool} {a : Char} (l : Chars)
    (ha : p a = false) : (a :: l).dropWhile p = a :: l := by
  simp [List.dropWhile_cons, ha]

theorem length_dropWhile_le (p : Char → Bool) (l : Chars) :
    (l.dropWhile p).length ≤ l.length := by
  induction l with
  | nil => simp
  | cons a l ih =>
    rw [List.dropWhile_cons]
    by_cases ha : p a = true
    · rw [if_pos ha]; exact le_trans ih (by simp)
    · rw [if_neg ha]

theorem head_false_of_dropWhile_self {p : Char → Bool} {a : Char} {l : Chars}
    (h : (a :: l).dropWhile p = a :: l) : p a = false := by
  by_cases ha : p a = true
  · exfalso
    rw [List.dropWhile_cons, if_pos ha] at h
    have hlen := length_dropWhile_le p l
    have := congrArg List.length h
    simp at this
    omega
  · simpa using ha

theorem rev_dropWhile_self {text : Chars} (hr : rtrim text = text) :
    text.reverse.dropWhile isWsChar = text.reverse := by
  have := congrArg List.reverse hr
  rwa [rtrim, List.reverse_reverse] at this

theorem dropWhile_ws_keep {text : Chars} (k : Chars) (hr : rtrim text = text)
    (hne : text ≠ []) :
    (text.reverse ++ k).dropWhile isWsChar = text.reverse ++ k := by
  have hself := rev_dropWhile_self hr
  cases hd : text.reverse with
  | nil => exact absurd (by simpa using congrArg List.reverse hd) hne
  | cons d u =>
    rw [hd] at hself
    have hdws : isWsChar d = false := head_false_of_dropWhile_self hself
    rw [List.cons_append]
    exact dropWhile_cons_of_head _ hdws

theorem trimJS_marker {c : Char} {m text : Chars} (hc : isWsChar c = false)
    (hr : rtrim text = text) (hne : text ≠ []) :
    trimJS (c :: m ++ text) = c :: m ++ text := by
  have h1 : ltrim (c :: m ++ text) = c :: m ++ text :=
    dropWhile_cons_of_head _ hc
  have h2 : rtrim (c :: m ++ text) = c :: m ++ text := by
    unfold rtrim
    have hrev : (c :: m ++ text).reverse = text.reverse ++ (m.reverse ++ [c]) := by
      simp
    rw [hrev, dropWhile_ws_keep _ hr hne, ← hrev, List.reverse_reverse]
  unfold trimJS
  rw [h1, h2]

theorem splitNl_no_nl {l : Chars} (h : '\n' ∉ l) : splitNl l = [l] := by
  induction l with
  | nil => rfl
  | cons c rest ih =>
    have hc : ¬(c = '\n') := fun e => h (by simp [e])
    have hrest := ih fun hm => h (List.mem_cons_of_mem _ hm)
    simp only [splitNl, if_neg hc, hrest]

theorem splitNl_append {x : Chars} (r : Chars) (h : '\n' ∉ x) :
    splitNl (x ++ '\n' :: r) = x :: splitNl r := by
  induction x with
  | nil => simp [splitNl]
  | cons c rest ih =>
    have hc : ¬(c = '\n') := fun e => h (by simp [e])
    have hrest := ih fun hm => h (List.mem_cons_of_mem _ hm)
    simp only [List.cons_append, splitNl, List.append_eq, if_neg hc, hrest]

theorem splitNl_joinNl {xs : List Chars} (hne : xs ≠ [])
    (h : ∀ x ∈ xs, '\n' ∉ x) : splitNl (joinNl xs) = xs := by
  induction xs with
  | nil => exact absurd rfl hne
  | cons x rest ih =>
    cases rest with
    | nil => simpa [joinNl] using splitNl_no_nl (h x (by simp))
    | cons y t =>
      have hj : joinNl (x :: y :: t) = x ++ '\n' :: joinNl (y :: t) := rfl
      rw [hj, splitNl_append _ (h x (by simp)),
        ih (by simp) fun z hz => h z (List.mem_cons_of_mem _ hz)]

theorem findLineIndexGo_unresolved :
    ∀ (ls : List Chars) (pos i cc : Nat),
      cc + (joinNl ls).length < pos → findLineIndexGo pos i cc ls = 0 := by
  intro ls
  induction ls with
  | nil => intro pos i cc _; rfl
  | cons l rest ih =>
    intro pos i cc hlt
    have hge : l.length ≤ (joinNl (l :: rest)).length := by
      cases rest with
      | nil => simp [joinNl]
      | cons y t =>
        have : joinNl (l :: y :: t) = l ++ '\n' :: joinNl (y :: t) := rfl
        simp [this]
    have hguard : ¬(pos ≤ cc + l.length) := by omega
    rw [findLineIndexGo, if_neg hguard]
    cases rest with
    | nil => rfl
    | cons y t =>
      have hj : joinNl (l :: y :: t) = l ++ '\n' :: joinNl (y :: t) := rfl
      apply ih
      rw [hj] at hlt
      simp at hlt
      omega

theorem findLineIndexGo_resolve :
    ∀ (ls : List Chars) (k : Nat) (hk : k < ls.length) (pos i cc : Nat),
      cc + lineStartOf ls k ≤ pos →
      pos ≤ cc + lineStartOf ls k + (ls.get ⟨k, hk⟩).length →
      findLineIndexGo pos i cc ls = i + k := by
  intro ls
  induction ls with
  | nil => intro k hk; simp at hk
  | cons l rest ih =>
    intro k hk pos i cc hlo hhi
    cases k with
    | zero =>
      have h0 : lineStartOf (l :: rest) 0 = 0 := by simp [lineStartOf]
      rw [h0] at hhi
      simp only [List.get] at hhi
      rw [findLineIndexGo, if_pos (by omega)]
      omega
    | succ k =>
      have hk' : k < rest.length := by simpa using hk
      have hstep : lineStartOf (l :: rest) (k + 1) =
          l.length + 1 + lineStartOf rest k := by
        simp [lineStartOf, List.take_succ_cons]
      rw [hstep] at hlo hhi
      have hget : (l :: rest).get ⟨k + 1, hk⟩ = rest.get ⟨k, hk'⟩ := rfl
      rw [hget] at hhi
      have hguard : ¬(pos ≤ cc + l.length) := by omega
      rw [findLineIndexGo, if_neg hguard]
      rw [ih k hk' pos (i + 1) (cc + l.length + 1) (by omega) (by omega)]
      omega

theorem takeWhile_mem_pred {p : Char → Bool} :
    ∀ (l : Chars), ∀ a ∈ l.takeWhile p, p a = true := by
  intro l
  induction l with
  | nil => simp
  | cons b l ih =>
    rw [List.takeWhile_cons]
    by_cases hb : p b = true
    · rw [if_pos hb]
      intro a ha
      rcases List.mem_cons.mp ha with h | h
      · rwa [h]
      · exact ih a h
    · rw [if_neg hb]
      simp

theorem dropWhile_run_dot {q : Char → Bool} {run rest' : Chars} {t : Chars}
    (ht : t = run ++ '.' :: rest') (hall : ∀ a ∈ run, q a = true)
    (hq : q '.' = false) :
    t.dropWhile q = '.' :: rest' ∧ t.takeWhile q = run := by
  subst ht
  constructor
  · rw [dropWhile_append_of_all _ hall, List.dropWhile_cons, hq]
    simp
  · rw [takeWhile_append_of_all _ hall, List.takeWhile_cons, hq]
    simp

theorem runDotWs_destruct {p : Char → Bool} {t : Chars}
    (h : runDotWs p t = true) :
    (t.takeWhile p).isEmpty = false ∧
      ∃ c rest, t.dropWhile p = '.' :: c :: rest ∧ isWsChar c = true := by
  unfold runDotWs spanL at h
  rw [Bool.and_eq_true] at h
  obtain ⟨h1, h2⟩ := h
  refine ⟨by simpa using h1, ?_⟩
  split at h2
  · next c rest heq => exact ⟨c, rest, heq, h2⟩
  · exact absurd h2 (by simp)

theorem capture_of_run {p : Char → Bool} {t : Chars}
    (hsub1 : ∀ c, p c = true → c.isAlphanum = true)
    (hsub2 : ∀ c, p c = true → (c.isDigit || c.isLower) = true)
    (h : runDotWs p t = true) :
    olCapture t = some (olStripSpec t) := by
  obtain ⟨hrun, c, rest, hdrop, hws⟩ := runDotWs_destruct h
  have ht : t = t.takeWhile p ++ '.' :: c :: rest := by
    conv_lhs => rw [← List.takeWhile_append_dropWhile (p := p) (l := t)]
    rw [hdrop]
  have hallp : ∀ a ∈ t.takeWhile p, p a = true := takeWhile_mem_pred t
  have halnum := dropWhile_run_dot ht
    (fun a ha => hsub1 a (hallp a ha)) (by decide)
  have hdl := dropWhile_run_dot ht
    (fun a ha => hsub2 a (hallp a ha)) (by decide)
  have hstrip : olStripSpec t = rest := by
    unfold olStripSpec
    rw [hdl.1]
    rfl
  simp only [olCapture, spanL, halnum.1, halnum.2, hstrip]
  simp [hrun, hws]

theorem olTest_capture {t : Chars} (h : olTest t = true) :
    olCapture t = some (olStripSpec t) := by
  unfold olTest at h
  rw [Bool.or_eq_true, Bool.or_eq_true] at h
  rcases h with (h | h) | h
  · exact capture_of_run
      (fun c hc => by simp [Char.isAlphanum, hc])
      (fun c hc => by simp [hc]) h
  · exact capture_of_run
      (fun c hc => by simp [Char.isAlphanum, Char.isAlpha, hc])
      (fun c hc => by simp [hc]) h
  · have hsub : ∀ c, isRomanLower c = true → c.isLower = true := by
      intro c hc
      simp only [isRomanLower, Bool.or_eq_true, decide_eq_true_eq] at hc
      rcases hc with ((((((h | h) | h) | h) | h) | h) | h) <;> subst h <;> decide
    exact capture_of_run
      (fun c hc => by
        simp [Char.isAlphanum, Char.isAlpha, hsub c hc])
      (fun c hc => by simp [hsub c hc]) h

theorem taskTest_ul {t : Chars} (h : taskTest t = true) : ulTest t = true := by
  unfold taskTest at h
  unfold ulTest sw
  rw [Bool.or_eq_true, Bool.or_eq_true, Bool.or_eq_true] at h
  rw [Bool.or_eq_true, Bool.or_eq_true]
  have tr : ∀ (a b : Chars), a <+: b → b.isPrefixOf t = true → a.isPrefixOf t = true := by
    intro a b hab hbt
    rw [List.isPrefixOf_iff_prefix] at hbt ⊢
    exact hab.trans hbt
  rcases h with ((h | h) | h) | h
  · exact Or.inl (Or.inl (tr _ _ (by decide) h))
  · exact Or.inl (Or.inl (tr _ _ (by decide) h))
  · exact Or.inl (Or.inr (tr _ _ (by decide) h))
  · exact Or.inl (Or.inr (tr _ _ (by decide) h))

theorem detectTrimmed_eq_spec (t raw : Chars) :
    detectTrimmed t raw = classifyTrimmedSpec t raw := by
  unfold detectTrimmed classifyTrimmedSpec
  by_cases g1 : sw "### " t = true
  · simp [g1]
  by_cases g2 : sw "## " t = true
  · simp [g1, g2]
  by_cases g3 : sw "# " t = true
  · simp [g1, g2, g3]
  by_cases g4 : headingWordTest t = true
  · simp [g1, g2, g3, g4]
  by_cases g5 : ulTest t = true
  · simp [g1, g2, g3, g4, g5]
  by_cases g6 : olTest t = true
  · simp only [g1, g2, g3, g4, g5, g6, if_true, if_false,
      Bool.false_eq_true, olTest_capture g6]
  have g7 : taskTest t = false := by
    by_cases ht : taskTest t = true
    · exact absurd (taskTest_ul ht) g5
    · simpa using ht
  by_cases g8 : fenceTest t = true
  · simp [g1, g2, g3, g4, g5, g6, g7, g8]
  by_cases g9 : inlineCodeTest t = true
  · simp [g1, g2, g3, g4, g5, g6, g7, g8, g9]
  simp [g1, g2, g3, g4, g5, g6, g7, g8, g9]

theorem updateContentAux_eq_spec :
    ∀ (ls : List LineFormat) (c : Nat) (prev : Option LineFormatType),
      updateContentAux prev c ls =
        specOlSerialize (if prev = some .ol then c else 1) ls := by
  intro ls
  induction ls with
  | nil => intro c prev; cases prev <;> simp [updateContentAux, specOlSerialize]
  | cons l r ih =>
    intro c prev
    cases htype : l.type with
    | ol =>
      simp only [updateContentAux, specOlSerialize, htype, ih]
      simp
    | plain =>
      simp only [updateContentAux, specOlSerialize, htype, ih]
      simp [lineMarker]
    | h1 =>
      simp only [updateContentAux, specOlSerialize, htype, ih]
      simp
    | h2 =>
      simp only [updateContentAux, specOlSerialize, htype, ih]
      simp
    | h3 =>
      simp only [updateContentAux, specOlSerialize, htype, ih]
      simp
    | ul =>
      simp only [updateContentAux, specOlSerialize, htype, ih]
      simp

theorem specOlSerialize_get_ol :
    ∀ (ls : List LineFormat) (i : Nat) (hi : i < ls.length) (c : Nat),
      (ls.get ⟨i, hi⟩).type = .ol →
      (specOlSerialize c ls).get? i =
        some (natChars
            ((ls.take i).foldl (fun n l => if l.type = .ol then n + 1 else 1) c) ++
          strL ". " ++ applyInline (ls.get ⟨i, hi⟩)) := by
  intro ls
  induction ls with
  | nil => intro i hi; simp at hi
  | cons l r ih =>
    intro i hi c hol
    cases i with
    | zero =>
      have hl : l.type = .ol := hol
      simp [specOlSerialize, hl]
    | succ i =>
      have hi' : i < r.length := by simpa using hi
      have hget : (l :: r).get ⟨i + 1, hi⟩ = r.get ⟨i, hi'⟩ := rfl
      rw [hget] at hol
      by_cases hl : l.type = .ol
      · simp only [specOlSerialize, hl, if_true, List.get?_cons_succ,
          List.take_succ_cons, List.foldl_cons, hget]
        rw [ih i hi' (c + 1) hol]
      · simp only [specOlSerialize, hl, if_false, List.get?_cons_succ,
          List.take_succ_cons, List.foldl_cons, hget]
        rw [ih i hi' 1 hol]

theorem newSpans_start_lt_end (existing : Option LineFormat)
    (active : List InlineFormatType) (lc : Chars)
    (hex : ∀ ex, existing = some ex → ∀ s ∈ ex.inlineFormats,
      s.startPos < s.endPos) :
    ∀ s ∈ newSpans existing active lc, s.startPos < s.endPos := by
  cases existing with
  | none =>
    simp only [newSpans]
    by_cases hc : (!lc.isEmpty && !active.isEmpty) = true
    · rw [if_pos hc]
      intro s hs
      obtain ⟨f, _, rfl⟩ := List.mem_map.mp hs
      rw [Bool.and_eq_true] at hc
      have hne : lc ≠ [] := by simpa using hc.1
      simpa using List.length_pos.mpr hne
    · rw [if_neg hc]
      simp
  | some ex =>
    simp only [newSpans]
    by_cases hc : (!active.isEmpty && decide (ex.content.length < lc.length)) = true
    · rw [if_pos hc]
      intro s hs
      rcases List.mem_append.mp hs with h | h
      · exact hex ex rfl s h
      · obtain ⟨f, _, rfl⟩ := List.mem_map.mp h
        rw [Bool.and_eq_true] at hc
        simpa using hc.2
    · rw [if_neg hc]
      intro s hs
      exact hex ex rfl s hs

theorem reconcileLine_span_lt (existing : Option LineFormat) (isActive : Bool)
    (sel : LineFormatType) (active : List InlineFormatType) (lc : Chars)
    (hex : ∀ ex, existing = some ex → ∀ s ∈ ex.inlineFormats,
      s.startPos < s.endPos) :
    ∀ s ∈ (reconcileLine existing isActive sel active lc).inlineFormats,
      s.startPos < s.endPos := by
  have hns := newSpans_start_lt_end existing active lc hex
  intro s hs
  simp only [reconcileLine] at hs
  split at hs
  · split at hs
    · exact hns s hs
    · exact hns s hs
  · exact hns s hs

theorem reconcileAll_span_lt (prevLines : List LineFormat) (cur : Nat)
    (sel : LineFormatType) (active : List InlineFormatType) :
    ∀ (tls : List Chars) (i : Nat),
      (∀ l ∈ prevLines, ∀ s ∈ l.inlineFormats, s.startPos < s.endPos) →
      ∀ l ∈ reconcileAll prevLines cur sel active i tls,
        ∀ s ∈ l.inlineFormats, s.startPos < s.endPos := by
  intro tls
  induction tls with
  | nil => simp [reconcileAll]
  | cons lc rest ih =>
    intro i hprev l hl
    rw [reconcileAll] at hl
    rcases List.mem_cons.mp hl with h | h
    · subst h
      apply reconcileLine_span_lt
      intro ex hget s hs
      exact hprev ex (List.get?_mem hget) s hs
    · exact ih (i + 1) hprev l h

theorem parseInlineAux_stall :
    ∀ (fuel : Nat) (acc : List InlineTok),
      parseInlineAux fuel ['*', 'b'] acc = none := by
  intro fuel
  induction fuel with
  | zero => intro acc; rfl
  | succ n ih =>
    intro acc
    have hstep : parseInlineAux (n + 1) ['*', 'b'] acc =
        parseInlineAux n ['*', 'b'] (.plainRun [] :: acc) := rfl
    rw [hstep, ih]

/-- C1: the claim says `parseInlineMarkdown` terminates on every input and
degrades the unterminated marker of `"a *b"` to literal text.  The code does
not: its no-match branch advances to the next `*`/`` ` `` marker, and when
the unmatched marker sits at position 0 the slice leaves `remaining`
unchanged, so the `while` loop never terminates.  Formally: for every
amount of loop fuel, running `parseInlineMarkdown` on `"a *b"` fails to
finish (the first iteration consumes `"a "`, after which the scanner is
stuck on `"*b"` forever). -/
theorem parseInline_nonterminating :
    ∀ fuel : Nat, parseInlineMarkdown fuel (strL "a *b") = none := by
  intro fuel
  cases fuel with
  | zero => rfl
  | succ n =>
    have hstep : parseInlineMarkdown (n + 1) (strL "a *b") =
        parseInlineAux n ['*', 'b'] [.plainRun ['a', ' ']] := rfl
    rw [hstep, parseInlineAux_stall]

/-- C2 counterexample: the claim says an unresolvable cursor offset defaults
to the index of the last line; on the two-line buffer `["ab", "cd"]` with
cursor offset 100 the recomputed index is 0 (the first line), not 1. -/
theorem findLineIndex_not_last_cex :
    findLineIndex [strL "ab", strL "cd"] 100 = 0 ∧ (0 : Nat) ≠ 1 := by
  constructor
  · rfl
  · decide

/-- C2 (amended): out-of-range cursor offsets never throw (the scan is a
total function), and a cursor offset beyond the end of the buffer leaves
the recomputed `activeLineIndex` at its initial value 0 — the first line,
not the last. -/
theorem findLineIndex_default_zero (textLines : List Chars) (pos : Nat)
    (h : (joinNl textLines).length < pos) :
    findLineIndex textLines pos = 0 := by
  unfold findLineIndex
  exact findLineIndexGo_unresolved textLines pos 0 0 (by omega)

/-- C2 witness: the amended default-to-first-line behavior at a concrete
out-of-range input. -/
theorem findLineIndex_default_zero_witness :
    (joinNl [strL "ab", strL "cd"]).length < 100 ∧
      findLineIndex [strL "ab", strL "cd"] 100 = 0 :=
  ⟨by decide, findLineIndex_default_zero [strL "ab", strL "cd"] 100 (by decide)⟩

/-- C3 counterexample: two deviations from the claimed precedence table.
A line starting with the word `heading` is classified Heading1 with the
whole trimmed line kept (the claim's table would make it Plain), and a
task-list line `- [x] buy` keeps its checkbox in the content (the claim
says the checkbox marker is stripped). -/
theorem detect_claim_cex :
    detectMarkdownFormat (strL "heading one") = ⟨.h1, strL "heading one", []⟩ ∧
    LineFormatType.h1 ≠ LineFormatType.plain ∧
    detectMarkdownFormat (strL "- [x] buy") = ⟨.ul, strL "[x] buy", []⟩ ∧
    strL "[x] buy" ≠ strL "buy" := by
  refine ⟨by decide, by decide, by decide, by decide⟩

/-- C3 (amended): the classifier equals, on every input line, the spec-side
classifier whose precedence table is the claim's table amended in two
places: after the `# ` rule comes a case-insensitive `heading `/`header `
word rule yielding Heading1 with the whole trimmed line, and task-list
lines are intercepted by the earlier bullet rule (UnorderedItem, only the
two-character bullet stripped, checkbox kept). -/
theorem detect_eq_classifySpec (raw : Chars) :
    detectMarkdownFormat raw = classifyLineSpec raw := by
  unfold detectMarkdownFormat classifyLineSpec
  exact detectTrimmed_eq_spec (trimJS raw) raw

/-- C4 counterexample: the round-trip fails as stated.  The Plain record
with text `"- x"` serializes to `"- x"`, which re-classifies as an
UnorderedItem with text `"x"`, not as the original record. -/
theorem roundtrip_cex :
    detectMarkdownFormat (serializeOneLine ⟨.plain, strL "- x", []⟩) =
      ⟨.ul, strL "x", []⟩ ∧
    (⟨.ul, strL "x", []⟩ : LineFormat) ≠ ⟨.plain, strL "- x", []⟩ :=
  ⟨by decide, by decide⟩

/-- C4 (amended): the round-trip `classifyLine ∘ serializeOneLine = id`
holds for every span-free single-line record provided that (a) a Plain
record's text re-classifies as Plain with content unchanged (Plain lines
serialize without any marker), and (b) a non-Plain record's text is
nonempty and has no trailing whitespace (otherwise trimming eats into the
serialized marker or content). -/
theorem roundtrip_plain_amended (ty : LineFormatType) (text : Chars)
    (hplain : ty = .plain → detectMarkdownFormat text = ⟨.plain, text, []⟩)
    (hne : ty ≠ .plain → text ≠ [])
    (htrail : ty ≠ .plain → rtrim text = text) :
    detectMarkdownFormat (serializeOneLine ⟨ty, text, []⟩) = ⟨ty, text, []⟩ := by
  cases ty with
  | plain =>
    exact hplain rfl
  | h1 =>
    have hser : serializeOneLine ⟨.h1, text, []⟩ = '#' :: [' '] ++ text := rfl
    rw [hser]
    unfold detectMarkdownFormat
    rw [trimJS_marker (by decide) (htrail (by decide)) (hne (by decide))]
    simp [detectTrimmed, sw, List.isPrefixOf, headingWordTest, ulTest, olTest,
      olCapture, runDotWs, spanL, strL, List.takeWhile, List.dropWhile, isWsChar]
  | h2 =>
    have hser : serializeOneLine ⟨.h2, text, []⟩ = '#' :: ['#', ' '] ++ text := rfl
    rw [hser]
    unfold detectMarkdownFormat
    rw [trimJS_marker (by decide) (htrail (by decide)) (hne (by decide))]
    simp [detectTrimmed, sw, List.isPrefixOf, headingWordTest, ulTest, olTest,
      olCapture, runDotWs, spanL, strL, List.takeWhile, List.dropWhile, isWsChar]
  | h3 =>
    have hser : serializeOneLine ⟨.h3, text, []⟩ =
        '#' :: ['#', '#', ' '] ++ text := rfl
    rw [hser]
    unfold detectMarkdownFormat
    rw [trimJS_marker (by decide) (htrail (by decide)) (hne (by decide))]
    simp [detectTrimmed, sw, List.isPrefixOf, headingWordTest, ulTest, olTest,
      olCapture, runDotWs, spanL, strL, List.takeWhile, List.dropWhile, isWsChar]
  | ul =>
    have hser : serializeOneLine ⟨.ul, text, []⟩ = '-' :: [' '] ++ text := rfl
    rw [hser]
    unfold detectMarkdownFormat
    rw [trimJS_marker (by decide) (htrail (by decide)) (hne (by decide))]
    simp [detectTrimmed, sw, List.isPrefixOf, headingWordTest, ulTest, olTest,
      olCapture, runDotWs, spanL, strL, List.takeWhile, List.dropWhile, isWsChar]
  | ol =>
    have hser : serializeOneLine ⟨.ol, text, []⟩ = '1' :: ['.', ' '] ++ text := rfl
    rw [hser]
    unfold detectMarkdownFormat
    rw [trimJS_marker (by decide) (htrail (by decide)) (hne (by decide))]
    simp [detectTrimmed, sw, List.isPrefixOf, headingWordTest, ulTest, olTest,
      olCapture, runDotWs, spanL, strL, List.takeWhile, List.dropWhile, isWsChar]

/-- C4 witness: the amended round-trip at the concrete UnorderedItem record
with text `"milk"`. -/
theorem roundtrip_plain_amended_witness :
    rtrim (strL "milk") = strL "milk" ∧
      detectMarkdownFormat (serializeOneLine ⟨.ul, strL "milk", []⟩) =
        ⟨.ul, strL "milk", []⟩ :=
  ⟨by decide,
    roundtrip_plain_amended .ul (strL "milk")
      (fun h => absurd h (by decide)) (fun _ => by decide) (fun _ => by decide)⟩

/-- C5: serialization numbers OrderedItem lines with a running counter that
resets to 1 whenever the previous line is not an OrderedItem and increments
by 1 for each consecutive OrderedItem — `updateContent` equals, on every
line sequence, the claim-side serializer `specOlSerialize` written with
exactly that counter rule; and on the block-type sequence
`[OrderedItem, OrderedItem, Plain, OrderedItem]` the emitted prefixes are
`1.`, `2.`, none, `1.`. -/
theorem updateContent_ol_numbering :
    (∀ newLines : List LineFormat,
        updateContent newLines = joinNl (specOlSerialize 1 newLines)) ∧
      updateContent
          [⟨.ol, strL "a", []⟩, ⟨.ol, strL "b", []⟩, ⟨.plain, strL "c", []⟩,
            ⟨.ol, strL "d", []⟩] =
        strL "1. a\n2. b\nc\n1. d" := by
  constructor
  · intro newLines
    unfold updateContent
    rw [updateContentAux_eq_spec newLines 1 none]
    simp
  · decide

/-- C6: for every line sequence and every index holding an OrderedItem, the
serialized line emitted by `updateContent`'s per-line loop is exactly the
gutter badge computed independently by `getVisualPrefix` (modelled as
`getVisualBadge`, `"{n}."`), followed by a space and the line's
inline-wrapped content — i.e. the two independently computed running
counters always agree. -/
theorem visual_badge_agrees_serializer (lines : List LineFormat) (i : Nat)
    (hi : i < lines.length) (hol : (lines.get ⟨i, hi⟩).type = .ol) :
    (updateContentAux none 1 lines).get? i =
      some (getVisualBadge .ol i lines ++ ' ' ::
        applyInline (lines.get ⟨i, hi⟩)) := by
  rw [updateContentAux_eq_spec lines 1 none,
    show (if (none : Option LineFormatType) = some .ol then 1 else 1) = 1
      from by simp,
    specOlSerialize_get_ol lines i hi 1 hol]
  congr 1
  simp [getVisualBadge, olNumberFor, strL]

/-- C6 witness: on the two-line sequence `[ol "a", ol "b"]` at index 1 the
serializer emits the badge `"2."` plus space plus content. -/
theorem visual_badge_agrees_serializer_witness :
    (1 < ([⟨.ol, strL "a", []⟩, ⟨.ol, strL "b", []⟩] : List LineFormat).length) ∧
      (updateContentAux none 1 [⟨.ol, strL "a", []⟩, ⟨.ol, strL "b", []⟩]).get? 1 =
        some (getVisualBadge .ol 1 [⟨.ol, strL "a", []⟩, ⟨.ol, strL "b", []⟩] ++
          ' ' :: applyInline
            (([⟨.ol, strL "a", []⟩, ⟨.ol, strL "b", []⟩] :
              List LineFormat).get ⟨1, by decide⟩)) :=
  ⟨by decide, visual_badge_agrees_serializer _ 1 (by decide) (by decide)⟩

/-- C7 counterexample: the claimed invariant `startOffset < endOffset <=
text.length` fails after a raw text change.  Deleting characters keeps the
stale span: from one line `"abcd"` carrying span `[0,4)` a change event with
new value `"ab"` produces the record `{plain, "ab", [0,4)}`, whose span end
4 exceeds the text length 2. -/
theorem span_invariant_cex :
    handleTextChangeLines [⟨.plain, strL "abcd", [⟨0, 4, .bold⟩]⟩] 0 .plain []
        (strL "ab") =
      [⟨.plain, strL "ab", [⟨0, 4, .bold⟩]⟩] ∧
    ¬(4 ≤ (strL "ab").length) :=
  ⟨by decide, by decide⟩

/-- C7 (amended): after a raw text-change event the first half of the
invariant — `startOffset < endOffset` for every span of every line — is
preserved (newly pushed spans are nonempty by construction, and existing
spans are carried unchanged); the second half `endOffset <= text.length`
does not hold in general, since deletions and markdown marker stripping
shorten the stored text without clamping existing spans. -/
theorem span_start_lt_end_preserved (prevLines : List LineFormat) (cur : Nat)
    (sel : LineFormatType) (active : List InlineFormatType) (value : Chars)
    (hprev : ∀ l ∈ prevLines, ∀ s ∈ l.inlineFormats, s.startPos < s.endPos) :
    ∀ l ∈ handleTextChangeLines prevLines cur sel active value,
      ∀ s ∈ l.inlineFormats, s.startPos < s.endPos := by
  intro l hl
  simp only [handleTextChangeLines] at hl
  split at hl
  · simp only [List.mem_singleton] at hl
    subst hl
    simp
  · exact reconcileAll_span_lt prevLines cur sel active (splitNl value) 0
      hprev l hl

/-- C7 witness: the preserved half of the invariant at a concrete event —
typing `"b"` after `"a"` with bold armed pushes the span `[1,2)` and
`1 < 2`. -/
theorem span_start_lt_end_preserved_witness :
    (⟨1, 2, .bold⟩ : InlineSpan).startPos < (⟨1, 2, .bold⟩ : InlineSpan).endPos :=
  span_start_lt_end_preserved [⟨.plain, strL "a", []⟩] 0 .plain [.bold]
    (strL "ab") (by decide) ⟨.plain, strL "ab", [⟨1, 2, .bold⟩]⟩ (by decide)
    ⟨1, 2, .bold⟩ (by decide)

/-- C8: soft newline (Shift+Enter).  When the editor state is consistent
(the textarea value is the newline-join of the stored line contents, no
stored content contains a newline) and the cursor offset lies within the
active line, the event splits the active line's text at the in-line cursor
offset: the active line keeps its blockType with the text before the
cursor, a new record holding the text after the cursor with empty inline
spans is inserted immediately after it — its blockType is the split line's
type when that type is UnorderedItem or OrderedItem and Plain otherwise —
and the active line index becomes the new line's index. -/
theorem softNewline_splits (lines : List LineFormat) (cur pos : Nat)
    (hcur : cur < lines.length)
    (hnl : ∀ l ∈ lines, '\n' ∉ l.content)
    (hlo : lineStartOf (lines.map (fun l => l.content)) cur ≤ pos)
    (hhi : pos ≤ lineStartOf (lines.map (fun l => l.content)) cur +
      (lines.get ⟨cur, hcur⟩).content.length) :
    softNewline lines cur (joinNl (lines.map (fun l => l.content))) pos =
      ((lines.set cur
          { lines.get ⟨cur, hcur⟩ with
            content := (lines.get ⟨cur, hcur⟩).content.take
              (pos - lineStartOf (lines.map (fun l => l.content)) cur) }).insertIdx
        (cur + 1)
        ⟨if (lines.get ⟨cur, hcur⟩).type = .ul ∨ (lines.get ⟨cur, hcur⟩).type = .ol
            then (lines.get ⟨cur, hcur⟩).type else .plain,
          (lines.get ⟨cur, hcur⟩).content.drop
            (pos - lineStartOf (lines.map (fun l => l.content)) cur), []⟩,
        cur + 1) := by
  have hlne : lines ≠ [] := by
    intro h
    subst h
    simp at hcur
  have hmapne : lines.map (fun l => l.content) ≠ [] := by simpa using hlne
  have hnl' : ∀ x ∈ lines.map (fun l => l.content), '\n' ∉ x := by
    intro x hx
    obtain ⟨l, hlmem, rfl⟩ := List.mem_map.mp hx
    exact hnl l hlmem
  have hsplit : splitNl (joinNl (lines.map fun l => l.content)) =
      lines.map fun l => l.content := splitNl_joinNl hmapne hnl'
  have hcur' : cur < (lines.map fun l => l.content).length := by simpa using hcur
  have hgetmap : (lines.map fun l => l.content).get ⟨cur, hcur'⟩ =
      (lines.get ⟨cur, hcur⟩).content := by simp
  have hfind : findLineIndex (lines.map fun l => l.content) pos = cur := by
    have := findLineIndexGo_resolve (lines.map fun l => l.content) cur hcur'
      pos 0 0 (by omega) (by rw [hgetmap]; omega)
    unfold findLineIndex
    omega
  have hget2 : (lines.map fun l => l.content).get? cur =
      some (lines.get ⟨cur, hcur⟩).content := by
    rw [List.get?_eq_get hcur', hgetmap]
  have hlget : lines.get? cur = some (lines.get ⟨cur, hcur⟩) :=
    List.get?_eq_get hcur
  simp only [softNewline, hsplit, hfind, hget2, hlget, Option.getD_some]
  by_cases hty : (lines.get ⟨cur, hcur⟩).type = .ul ∨
      (lines.get ⟨cur, hcur⟩).type = .ol
  · have hcopy := hty
    rcases hcopy with h | h <;> simp [h, if_pos hty]
  · have h1 : ¬((lines.get ⟨cur, hcur⟩).type = .ul) := fun h => hty (Or.inl h)
    have h2 : ¬((lines.get ⟨cur, hcur⟩).type = .ol) := fun h => hty (Or.inr h)
    simp [h1, h2, if_neg hty]

/-- C8 witness: the spec's two soft-newline examples — a bullet line
`"milk"` with the cursor at its end continues as a bullet, a Heading1 line
`"Title"` continues as Plain; both move the active index to the new line. -/
theorem softNewline_splits_witness :
    softNewline [⟨.ul, strL "milk", []⟩] 0 (strL "milk") 4 =
      ([⟨.ul, strL "milk", []⟩, ⟨.ul, [], []⟩], 1) ∧
    softNewline [⟨.h1, strL "Title", []⟩] 0 (strL "Title") 5 =
      ([⟨.h1, strL "Title", []⟩, ⟨.plain, [], []⟩], 1) := by
  constructor
  · exact (softNewline_splits [⟨.ul, strL "milk", []⟩] 0 4 (by decide)
      (by decide) (by decide) (by decide)).trans (by decide)
  · exact (softNewline_splits [⟨.h1, strL "Title", []⟩] 0 5 (by decide)
      (by decide) (by decide) (by decide)).trans (by decide)

/-- C9: Backspace with the cursor at the start of an empty, non-Plain line
is intercepted and only resets that line's blockType to Plain: the result
is `lines.set cur {line with type := Plain}`, so the line count, the line's
text and spans and every other line are unchanged and no character is
deleted.  A subsequent Backspace on the resulting Plain line is not
intercepted (the handler returns `none`, deferring to the default merge
behavior), for any cursor position. -/
theorem backspace_style_reset (lines : List LineFormat) (cur pos : Nat)
    (hcur : cur < lines.length)
    (hnl : ∀ l ∈ lines, '\n' ∉ l.content)
    (hempty : (lines.get ⟨cur, hcur⟩).content = [])
    (hty : (lines.get ⟨cur, hcur⟩).type ≠ .plain)
    (hpos : pos = lineStartOf (lines.map (fun l => l.content)) cur) :
    backspaceIntercept lines cur (joinNl (lines.map (fun l => l.content))) pos =
      some (lines.set cur { lines.get ⟨cur, hcur⟩ with type := .plain }) ∧
    ∀ pos2 : Nat,
      backspaceIntercept
        (lines.set cur { lines.get ⟨cur, hcur⟩ with type := .plain }) cur
        (joinNl (lines.map (fun l => l.content))) pos2 = none := by
  have hlne : lines ≠ [] := by
    intro h
    subst h
    simp at hcur
  have hmapne : lines.map (fun l => l.content) ≠ [] := by simpa using hlne
  have hnl' : ∀ x ∈ lines.map (fun l => l.content), '\n' ∉ x := by
    intro x hx
    obtain ⟨l, hlmem, rfl⟩ := List.mem_map.mp hx
    exact hnl l hlmem
  have hsplit : splitNl (joinNl (lines.map fun l => l.content)) =
      lines.map fun l => l.content := splitNl_joinNl hmapne hnl'
  have hlget : lines.get? cur = some (lines.get ⟨cur, hcur⟩) :=
    List.get?_eq_get hcur
  constructor
  · simp only [backspaceIntercept, hsplit, hlget]
    rw [if_pos ⟨hpos, by rw [hempty]; rfl, hty⟩]
  · intro pos2
    have hlen : cur <
        (lines.set cur { lines.get ⟨cur, hcur⟩ with type := .plain }).length := by
      simpa using hcur
    have hgs : (lines.set cur
        { lines.get ⟨cur, hcur⟩ with type := .plain }).get? cur =
        some { lines.get ⟨cur, hcur⟩ with type := .plain } := by
      rw [List.get?_eq_get hlen]
      congr 1
      simp [List.get_eq_getElem]
    simp only [backspaceIntercept, hsplit, hgs]
    rw [if_neg]
    intro hcond
    exact hcond.2.2 rfl

/-- C9 witness: the spec's example — a single empty Heading2 line with the
cursor at offset 0 becomes a Plain empty line with the buffer otherwise
unchanged, and a second Backspace on the resulting Plain line is not
intercepted. -/
theorem backspace_style_reset_witness :
    backspaceIntercept [⟨.h2, [], []⟩] 0 [] 0 = some [⟨.plain, [], []⟩] ∧
    backspaceIntercept [⟨.plain, [], []⟩] 0 [] 5 = none := by
  have h := backspace_style_reset [⟨.h2, [], []⟩] 0 0 (by decide) (by decide)
    (by decide) (by decide) (by decide)
  exact ⟨h.1, h.2 5⟩

theorem detectTrimmed_headingWord (t raw : Chars)
    (h : headingWordTest t = true) : detectTrimmed t raw = ⟨.h1, t, []⟩ := by
  cases t with
  | nil => simp [headingWordTest, sw] at h
  | cons c rest =>
    have hc : Char.toLower c = 'h' := by
      have h' := h
      simp only [headingWordTest, sw, List.map_cons, List.isPrefixOf,
        Bool.or_eq_true, Bool.and_eq_true, beq_iff_eq] at h'
      rcases h' with h' | h' <;> exact h'.1.symm
    have hch : c ≠ '#' := by
      intro e
      rw [e] at hc
      exact absurd hc (by decide)
    have g0 : (('#' : Char) == c) = false := beq_eq_false_iff_ne.mpr (Ne.symm hch)
    have g1 : sw "### " (c :: rest) = false := by
      simp [sw, List.isPrefixOf, g0]
    have g2 : sw "## " (c :: rest) = false := by
      simp [sw, List.isPrefixOf, g0]
    have g3 : sw "# " (c :: rest) = false := by
      simp [sw, List.isPrefixOf, g0]
    simp [detectTrimmed, g1, g2, g3, h]

/-- C10: any line whose trimmed text begins, case-insensitively, with the
word `heading ` or `header ` is classified Heading1 with content the entire
trimmed line (the word is not stripped) — such a line can never match the
`#` heading rules, whose marker's first character is not a letter, so the
word rule always fires. -/
theorem headingWord_h1 (raw : Chars)
    (h : headingWordTest (trimJS raw) = true) :
    detectMarkdownFormat raw = ⟨.h1, trimJS raw, []⟩ := by
  unfold detectMarkdownFormat
  exact detectTrimmed_headingWord (trimJS raw) raw h

/-- C10 witness: the ordinary sentence `"heading one"` is classified as a
level-1 heading with its text kept whole. -/
theorem headingWord_h1_witness :
    headingWordTest (trimJS (strL "heading one")) = true ∧
      detectMarkdownFormat (strL "heading one") =
        ⟨.h1, strL "heading one", []⟩ :=
  ⟨by decide,
    (headingWord_h1 (strL "heading one") (by decide)).trans (by decide)⟩
